import Mathlib

/-!
# UTF-8 codec of `src/data/c_init.c`

A shallow embedding of the codec functions of the C runtime prelude,
`getUTF8Size` and `unicode2UTF8`, and of the output entry points `printU32`,
`printU16` and `printU64`, together with theorems about them.

Modelling conventions:

* a `uint32_t` is a `Nat` below `2 ^ 32` (a `uint16_t` below `2 ^ 16`, a
  `uint64_t` below `2 ^ 64`); the bound is a hypothesis of the theorems, the
  functions themselves are defined on every `Nat`;
* a `uint8_t` is a `Nat`, and the cast `(uint8_t) e` is `e % 256`;
* the C `int` returned by both codec functions only ever holds one of the
  literals `0 .. 4`, so it is a `Nat`;
* the destination buffer `uint8_t *dest` is a `List Nat`, and the store
  `dest[i] = v` is `List.set dest i v`.  The C code performs no bounds check;
  theorems that speak about stored bytes assume the caller's obligation
  `4 ≤ dest.length`;
* the standard output stream is the list of bytes handed to `putchar`, passed
  in and returned; the value returned by `fflush(stdout)` is a parameter, and
  `abort()` is recorded in the `Outcome` of an entry point.
-/

namespace BrainfuckRust

/-! ## Definitions -/

/-- Length classifier: `int getUTF8Size(uint32_t codepoint)`. -/
def getUTF8Size (codepoint : Nat) : Nat :=
  if 0x0 ≤ codepoint ∧ codepoint ≤ 0x7f then
    1
  else if 0x80 ≤ codepoint ∧ codepoint ≤ 0x7ff then
    2
  else if 0x800 ≤ codepoint ∧ codepoint ≤ 0xffff then
    3
  else if 0x10000 ≤ codepoint ∧ codepoint ≤ 0x10ffff then
    4
  else
    0

/-- The cast `(uint8_t) e` of an unsigned value. -/
def toU8 (e : Nat) : Nat := e % 256

/-- Encoder: `int unicode2UTF8(uint8_t *dest, uint32_t codepoint)`.
Returns the buffer after the call together with the returned count.  The
stores are performed in the order of the source (last byte first). -/
def unicode2UTF8 (dest : List Nat) (codepoint : Nat) : List Nat × Nat :=
  let utf8Size := getUTF8Size codepoint
  match utf8Size with
  | 1 =>
    let dest := dest.set 0 (toU8 (codepoint &&& 0b01111111))
    (dest, utf8Size)
  | 2 =>
    let dest := dest.set 1 (toU8 (0b10000000 ||| (codepoint &&& 0b00111111)))
    let dest := dest.set 0 (toU8 (0b11000000 ||| ((codepoint >>> 6) &&& 0b00111111)))
    (dest, utf8Size)
  | 3 =>
    let dest := dest.set 2 (toU8 (0b10000000 ||| (codepoint &&& 0b00111111)))
    let dest := dest.set 1 (toU8 (0b10000000 ||| ((codepoint >>> 6) &&& 0b00111111)))
    let dest := dest.set 0 (toU8 (0b11100000 ||| ((codepoint >>> 12) &&& 0b00111111)))
    (dest, utf8Size)
  | 4 =>
    let dest := dest.set 3 (toU8 (0b10000000 ||| (codepoint &&& 0b00111111)))
    let dest := dest.set 2 (toU8 (0b10000000 ||| ((codepoint >>> 6) &&& 0b00111111)))
    let dest := dest.set 1 (toU8 (0b10000000 ||| ((codepoint >>> 12) &&& 0b00111111)))
    let dest := dest.set 0 (toU8 (0b11110000 ||| ((codepoint >>> 18) &&& 0b00111111)))
    (dest, utf8Size)
  | _ => (dest, utf8Size)

/-- Reassembly of the payload bits of a one- to four-byte sequence, following
the bit-packing rule of the specification. -/
def reassemble : List Nat → Nat
  | [b0] => b0
  | [b0, b1] => ((b0 &&& 0x1F) <<< 6) ||| (b1 &&& 0x3F)
  | [b0, b1, b2] => ((b0 &&& 0x0F) <<< 12) ||| ((b1 &&& 0x3F) <<< 6) ||| (b2 &&& 0x3F)
  | [b0, b1, b2, b3] =>
    ((b0 &&& 0x07) <<< 18) ||| ((b1 &&& 0x3F) <<< 12) ||| ((b2 &&& 0x3F) <<< 6) ||| (b3 &&& 0x3F)
  | _ => 0

/-- The encoder with the canonical leading-byte masks: `unicode2UTF8` in which
the payload mask `0b00111111` of the leading byte is replaced by `0x1F`
(length 2), `0x0F` (length 3) and `0x07` (length 4), as the specification
describes the tightened variant. -/
def encodeCanonical (dest : List Nat) (codepoint : Nat) : List Nat × Nat :=
  let utf8Size := getUTF8Size codepoint
  match utf8Size with
  | 1 =>
    let dest := dest.set 0 (toU8 (codepoint &&& 0b01111111))
    (dest, utf8Size)
  | 2 =>
    let dest := dest.set 1 (toU8 (0b10000000 ||| (codepoint &&& 0b00111111)))
    let dest := dest.set 0 (toU8 (0b11000000 ||| ((codepoint >>> 6) &&& 0x1F)))
    (dest, utf8Size)
  | 3 =>
    let dest := dest.set 2 (toU8 (0b10000000 ||| (codepoint &&& 0b00111111)))
    let dest := dest.set 1 (toU8 (0b10000000 ||| ((codepoint >>> 6) &&& 0b00111111)))
    let dest := dest.set 0 (toU8 (0b11100000 ||| ((codepoint >>> 12) &&& 0x0F)))
    (dest, utf8Size)
  | 4 =>
    let dest := dest.set 3 (toU8 (0b10000000 ||| (codepoint &&& 0b00111111)))
    let dest := dest.set 2 (toU8 (0b10000000 ||| ((codepoint >>> 6) &&& 0b00111111)))
    let dest := dest.set 1 (toU8 (0b10000000 ||| ((codepoint >>> 12) &&& 0b00111111)))
    let dest := dest.set 0 (toU8 (0b11110000 ||| ((codepoint >>> 18) &&& 0x07)))
    (dest, utf8Size)
  | _ => (dest, utf8Size)

/-- The result of running one of the output entry points: whether the process
was terminated by `abort()`, and the bytes handed to `putchar` so far. -/
structure Outcome where
  aborted : Bool
  out : List Nat
deriving DecidableEq

/-- The library call `putchar(c)`: appends `(unsigned char) c` to the stream. -/
def putchar (out : List Nat) (c : Nat) : List Nat := out ++ [c % 256]

/-- The library call `abort()`: the process terminates at once. -/
def abort (out : List Nat) : Outcome := { aborted := true, out := out }

/-- The source's `MF`, `if (fflush(stdout) != 0) { abort(); }`, as the
last statement of a function.  `fflushStdout` is the value that
`fflush(stdout)` returns, supplied by the environment. -/
def MF (fflushStdout : Int) (out : List Nat) : Outcome :=
  if fflushStdout ≠ 0 then abort out else { aborted := false, out := out }

/-- The constant `UINT32_MAX` of `<stdint.h>`. -/
def UINT32_MAX : Nat := 4294967295

/-- The cast `(uint32_t) e` of an unsigned value. -/
def toU32 (e : Nat) : Nat := e % 4294967296

/-- The conversion of an unsigned value to `uint16_t`. -/
def toU16 (e : Nat) : Nat := e % 65536

/-- Output entry point `void printU32(uint32_t a)`.  `buf` is the content of
the uninitialised local array `uint8_t buf[4]` at entry, `out` the bytes
already handed to the stream. -/
def printU32 (fflushStdout : Int) (buf : List Nat) (out : List Nat) (a : Nat) : Outcome :=
  let r := unicode2UTF8 buf a
  let buf := r.1
  let size := r.2
  let out := (List.range size).foldl (fun out i => putchar out (buf.getD i 0)) out
  MF fflushStdout out

/-- Output entry point `void printU16(uint16_t a)`. -/
def printU16 (fflushStdout : Int) (buf : List Nat) (out : List Nat) (a : Nat) : Outcome :=
  if toU32 a < 0x10000 then
    printU32 fflushStdout buf out (toU32 a)
  else
    abort out

/-- Output entry point `void printU64(uint64_t a)`. -/
def printU64 (fflushStdout : Int) (buf : List Nat) (out : List Nat) (a : Nat) : Outcome :=
  if a < UINT32_MAX then
    printU32 fflushStdout buf out (toU32 a)
  else
    abort out

/-- A call `printU16(v)` whose argument expression has a wider integer type:
C converts the argument to the parameter type `uint16_t` before the body
runs. -/
def callPrintU16 (fflushStdout : Int) (buf : List Nat) (out : List Nat) (v : Nat) : Outcome :=
  printU16 fflushStdout buf out (toU16 v)

/-! ## Auxiliary lemmas -/

theorem getUTF8Size_eq_one {cp : Nat} (h : cp ≤ 0x7F) : getUTF8Size cp = 1 := by
  unfold getUTF8Size; split_ifs <;> omega

theorem getUTF8Size_eq_two {cp : Nat} (h1 : 0x80 ≤ cp) (h2 : cp ≤ 0x7FF) :
    getUTF8Size cp = 2 := by
  unfold getUTF8Size; split_ifs <;> omega

theorem getUTF8Size_eq_three {cp : Nat} (h1 : 0x800 ≤ cp) (h2 : cp ≤ 0xFFFF) :
    getUTF8Size cp = 3 := by
  unfold getUTF8Size; split_ifs <;> omega

theorem getUTF8Size_eq_four {cp : Nat} (h1 : 0x10000 ≤ cp) (h2 : cp ≤ 0x10FFFF) :
    getUTF8Size cp = 4 := by
  unfold getUTF8Size; split_ifs <;> omega

theorem getUTF8Size_eq_zero {cp : Nat} (h : 0x10FFFF < cp) : getUTF8Size cp = 0 := by
  unfold getUTF8Size; split_ifs <;> omega

theorem getUTF8Size_le_four (cp : Nat) : getUTF8Size cp ≤ 4 := by
  unfold getUTF8Size; split_ifs <;> omega

theorem unicode2UTF8_size_one {cp : Nat} (dest : List Nat) (h : getUTF8Size cp = 1) :
    unicode2UTF8 dest cp = (dest.set 0 (toU8 (cp &&& 0x7F)), 1) := by
  simp [unicode2UTF8, h]

theorem unicode2UTF8_size_two {cp : Nat} (dest : List Nat) (h : getUTF8Size cp = 2) :
    unicode2UTF8 dest cp =
      ((dest.set 1 (toU8 (0x80 ||| (cp &&& 0x3F)))).set 0
        (toU8 (0xC0 ||| ((cp >>> 6) &&& 0x3F))), 2) := by
  simp [unicode2UTF8, h]

theorem unicode2UTF8_size_three {cp : Nat} (dest : List Nat) (h : getUTF8Size cp = 3) :
    unicode2UTF8 dest cp =
      (((dest.set 2 (toU8 (0x80 ||| (cp &&& 0x3F)))).set 1
        (toU8 (0x80 ||| ((cp >>> 6) &&& 0x3F)))).set 0
        (toU8 (0xE0 ||| ((cp >>> 12) &&& 0x3F))), 3) := by
  simp [unicode2UTF8, h]

theorem unicode2UTF8_size_four {cp : Nat} (dest : List Nat) (h : getUTF8Size cp = 4) :
    unicode2UTF8 dest cp =
      ((((dest.set 3 (toU8 (0x80 ||| (cp &&& 0x3F)))).set 2
        (toU8 (0x80 ||| ((cp >>> 6) &&& 0x3F)))).set 1
        (toU8 (0x80 ||| ((cp >>> 12) &&& 0x3F)))).set 0
        (toU8 (0xF0 ||| ((cp >>> 18) &&& 0x3F))), 4) := by
  simp [unicode2UTF8, h]

theorem unicode2UTF8_size_zero {cp : Nat} (dest : List Nat) (h : getUTF8Size cp = 0) :
    unicode2UTF8 dest cp = (dest, 0) := by
  simp [unicode2UTF8, h]

/-! ### Bit operations as arithmetic -/

theorem and_0x3F (x : Nat) : x &&& 0x3F = x % 64 := Nat.and_pow_two_sub_one_eq_mod x 6

theorem and_0x7F (x : Nat) : x &&& 0x7F = x % 128 := Nat.and_pow_two_sub_one_eq_mod x 7

theorem shiftRight_6 (x : Nat) : x >>> 6 = x / 64 := Nat.shiftRight_eq_div_pow x 6

theorem shiftRight_12 (x : Nat) : x >>> 12 = x / 4096 := Nat.shiftRight_eq_div_pow x 12

theorem shiftRight_18 (x : Nat) : x >>> 18 = x / 262144 := Nat.shiftRight_eq_div_pow x 18

theorem or_0x80 : ∀ a, a < 64 → 0x80 ||| a = 0x80 + a := by decide

theorem or_0xC0 : ∀ a, a < 32 → 0xC0 ||| a = 0xC0 + a := by decide

theorem or_0xE0 : ∀ a, a < 16 → 0xE0 ||| a = 0xE0 + a := by decide

theorem or_0xF0 : ∀ a, a < 8 → 0xF0 ||| a = 0xF0 + a := by decide

/-- The single byte of a one-byte encoding is the code point itself. -/
theorem byte_ascii {cp : Nat} (h : cp ≤ 0x7F) : toU8 (cp &&& 0x7F) = cp := by
  rw [and_0x7F, toU8]; omega

/-- A continuation byte is `0x80` plus the selected six-bit group. -/
theorem byte_cont (x : Nat) : toU8 (0x80 ||| (x &&& 0x3F)) = 0x80 + x % 64 := by
  rw [and_0x3F, or_0x80 _ (Nat.mod_lt _ (by decide)), toU8]; omega

/-- The leading byte of a two-byte encoding. -/
theorem byte_lead2 {cp : Nat} (h : cp ≤ 0x7FF) :
    toU8 (0xC0 ||| ((cp >>> 6) &&& 0x3F)) = 0xC0 + cp / 64 := by
  have h1 : cp / 64 % 64 = cp / 64 := by omega
  rw [and_0x3F, shiftRight_6, h1, or_0xC0 _ (by omega), toU8]; omega

/-- The leading byte of a three-byte encoding. -/
theorem byte_lead3 {cp : Nat} (h : cp ≤ 0xFFFF) :
    toU8 (0xE0 ||| ((cp >>> 12) &&& 0x3F)) = 0xE0 + cp / 4096 := by
  have h1 : cp / 4096 % 64 = cp / 4096 := by omega
  rw [and_0x3F, shiftRight_12, h1, or_0xE0 _ (by omega), toU8]; omega

/-- The leading byte of a four-byte encoding. -/
theorem byte_lead4 {cp : Nat} (h : cp ≤ 0x10FFFF) :
    toU8 (0xF0 ||| ((cp >>> 18) &&& 0x3F)) = 0xF0 + cp / 262144 := by
  have h1 : cp / 262144 % 64 = cp / 262144 := by omega
  rw [and_0x3F, shiftRight_18, h1, or_0xF0 _ (by omega), toU8]; omega

/-! ### Stores into a buffer of at least four bytes -/

theorem exists_four {dest : List Nat} (h : 4 ≤ dest.length) :
    ∃ a b c d rest, dest = a :: b :: c :: d :: rest := by
  match dest, h with
  | a :: b :: c :: d :: rest, _ => exact ⟨a, b, c, d, rest, rfl⟩

theorem set1_eq {dest : List Nat} (h : 4 ≤ dest.length) (x : Nat) :
    dest.set 0 x = x :: dest.drop 1 := by
  obtain ⟨a, b, c, d, rest, rfl⟩ := exists_four h
  rfl

theorem set2_eq {dest : List Nat} (h : 4 ≤ dest.length) (x y : Nat) :
    (dest.set 1 y).set 0 x = x :: y :: dest.drop 2 := by
  obtain ⟨a, b, c, d, rest, rfl⟩ := exists_four h
  rfl

theorem set3_eq {dest : List Nat} (h : 4 ≤ dest.length) (x y z : Nat) :
    ((dest.set 2 z).set 1 y).set 0 x = x :: y :: z :: dest.drop 3 := by
  obtain ⟨a, b, c, d, rest, rfl⟩ := exists_four h
  rfl

theorem set4_eq {dest : List Nat} (h : 4 ≤ dest.length) (x y z w : Nat) :
    (((dest.set 3 w).set 2 z).set 1 y).set 0 x = x :: y :: z :: w :: dest.drop 4 := by
  obtain ⟨a, b, c, d, rest, rfl⟩ := exists_four h
  rfl

/-! ### The encoder in closed form, per length class -/

theorem unicode2UTF8_ascii {cp : Nat} {dest : List Nat} (hd : 4 ≤ dest.length)
    (h : cp ≤ 0x7F) : unicode2UTF8 dest cp = (cp :: dest.drop 1, 1) := by
  rw [unicode2UTF8_size_one dest (getUTF8Size_eq_one h), byte_ascii h, set1_eq hd]

theorem unicode2UTF8_two {cp : Nat} {dest : List Nat} (hd : 4 ≤ dest.length)
    (h1 : 0x80 ≤ cp) (h2 : cp ≤ 0x7FF) :
    unicode2UTF8 dest cp = ((0xC0 + cp / 64) :: (0x80 + cp % 64) :: dest.drop 2, 2) := by
  rw [unicode2UTF8_size_two dest (getUTF8Size_eq_two h1 h2), byte_lead2 h2, byte_cont,
    set2_eq hd]

theorem unicode2UTF8_three {cp : Nat} {dest : List Nat} (hd : 4 ≤ dest.length)
    (h1 : 0x800 ≤ cp) (h2 : cp ≤ 0xFFFF) :
    unicode2UTF8 dest cp =
      ((0xE0 + cp / 4096) :: (0x80 + cp / 64 % 64) :: (0x80 + cp % 64) :: dest.drop 3, 3) := by
  rw [unicode2UTF8_size_three dest (getUTF8Size_eq_three h1 h2), byte_lead3 h2, byte_cont,
    byte_cont, set3_eq hd, shiftRight_6]

theorem unicode2UTF8_four {cp : Nat} {dest : List Nat} (hd : 4 ≤ dest.length)
    (h1 : 0x10000 ≤ cp) (h2 : cp ≤ 0x10FFFF) :
    unicode2UTF8 dest cp =
      ((0xF0 + cp / 262144) :: (0x80 + cp / 4096 % 64) :: (0x80 + cp / 64 % 64) ::
        (0x80 + cp % 64) :: dest.drop 4, 4) := by
  rw [unicode2UTF8_size_four dest (getUTF8Size_eq_four h1 h2), byte_lead4 h2, byte_cont,
    byte_cont, byte_cont, set4_eq hd, shiftRight_6, shiftRight_12]

/-! ### The library encoder `String.utf8EncodeChar` over natural numbers -/

theorem uint8_or_toNat (x y : UInt8) : UInt8.toNat (x ||| y) = x.toNat ||| y.toNat := by
  exact BitVec.toNat_or _ _

theorem uint32_toUInt8_toNat (v : UInt32) : v.toUInt8.toNat = v.toNat % 256 := rfl

theorem uint32_shiftRight_6 (v : UInt32) : (v >>> 6).toNat = v.toNat / 64 :=
  shiftRight_6 v.toNat

theorem uint32_shiftRight_12 (v : UInt32) : (v >>> 12).toNat = v.toNat / 4096 :=
  shiftRight_12 v.toNat

theorem uint32_shiftRight_18 (v : UInt32) : (v >>> 18).toNat = v.toNat / 262144 :=
  shiftRight_18 v.toNat

theorem and_0x1F (x : Nat) : x &&& 0x1F = x % 32 := Nat.and_pow_two_sub_one_eq_mod x 5

theorem and_0x0F (x : Nat) : x &&& 0x0F = x % 16 := Nat.and_pow_two_sub_one_eq_mod x 4

theorem and_0x07 (x : Nat) : x &&& 0x07 = x % 8 := Nat.and_pow_two_sub_one_eq_mod x 3

/-- A continuation byte of the library encoder. -/
theorem ref_cont (v : UInt32) : (v.toUInt8 &&& 0x3f ||| 0x80).toNat = 0x80 + v.toNat % 64 := by
  rw [uint8_or_toNat, UInt8.and_toNat, uint32_toUInt8_toNat]
  show (v.toNat % 256 &&& 0x3F) ||| 0x80 = _
  rw [and_0x3F, Nat.lor_comm, or_0x80 _ (Nat.mod_lt _ (by decide))]
  omega

/-- The leading byte of a two-byte sequence of the library encoder. -/
theorem ref_lead2 (v : UInt32) (h : v.toNat ≤ 0x7FF) :
    ((v >>> 6).toUInt8 &&& 0x1f ||| 0xc0).toNat = 0xC0 + v.toNat / 64 := by
  rw [uint8_or_toNat, UInt8.and_toNat, uint32_toUInt8_toNat, uint32_shiftRight_6]
  show (v.toNat / 64 % 256 &&& 0x1F) ||| 0xC0 = _
  rw [and_0x1F, Nat.lor_comm, or_0xC0 _ (Nat.mod_lt _ (by decide))]
  omega

/-- The leading byte of a three-byte sequence of the library encoder. -/
theorem ref_lead3 (v : UInt32) (h : v.toNat ≤ 0xFFFF) :
    ((v >>> 12).toUInt8 &&& 0x0f ||| 0xe0).toNat = 0xE0 + v.toNat / 4096 := by
  rw [uint8_or_toNat, UInt8.and_toNat, uint32_toUInt8_toNat, uint32_shiftRight_12]
  show (v.toNat / 4096 % 256 &&& 0x0F) ||| 0xE0 = _
  rw [and_0x0F, Nat.lor_comm, or_0xE0 _ (Nat.mod_lt _ (by decide))]
  omega

/-- The leading byte of a four-byte sequence of the library encoder. -/
theorem ref_lead4 (v : UInt32) (h : v.toNat ≤ 0x10FFFF) :
    ((v >>> 18).toUInt8 &&& 0x07 ||| 0xf0).toNat = 0xF0 + v.toNat / 262144 := by
  rw [uint8_or_toNat, UInt8.and_toNat, uint32_toUInt8_toNat, uint32_shiftRight_18]
  show (v.toNat / 262144 % 256 &&& 0x07) ||| 0xF0 = _
  rw [and_0x07, Nat.lor_comm, or_0xF0 _ (Nat.mod_lt _ (by decide))]
  omega

theorem char_ofNat_val_toNat {n : Nat} (h : n.isValidChar) : (Char.ofNat n).val.toNat = n := by
  simp only [Char.ofNat, h, dite_true]
  rfl

/-- The library encoder in closed form over the numeric value of the character. -/
theorem utf8EncodeChar_toNat (c : Char) :
    (String.utf8EncodeChar c).map UInt8.toNat =
      if c.val.toNat ≤ 0x7F then [c.val.toNat]
      else if c.val.toNat ≤ 0x7FF then [0xC0 + c.val.toNat / 64, 0x80 + c.val.toNat % 64]
      else if c.val.toNat ≤ 0xFFFF then
        [0xE0 + c.val.toNat / 4096, 0x80 + c.val.toNat / 64 % 64, 0x80 + c.val.toNat % 64]
      else
        [0xF0 + c.val.toNat / 262144, 0x80 + c.val.toNat / 4096 % 64,
          0x80 + c.val.toNat / 64 % 64, 0x80 + c.val.toNat % 64] := by
  have hv : c.val.toNat < 0x110000 := by
    rcases c.valid with h | ⟨_, h⟩
    · exact Nat.lt_trans h (by decide)
    · exact h
  have e1 : (c.val ≤ 0x7f) = (c.val.toNat ≤ 0x7F) := rfl
  have e2 : (c.val ≤ 0x7ff) = (c.val.toNat ≤ 0x7FF) := rfl
  have e3 : (c.val ≤ 0xffff) = (c.val.toNat ≤ 0xFFFF) := rfl
  unfold String.utf8EncodeChar
  simp only [e1, e2, e3]
  split_ifs with h1 h2 h3
  · simp only [List.map, uint32_toUInt8_toNat]
    congr 1; omega
  · simp only [List.map, ref_lead2 _ h2, ref_cont]
  · simp only [List.map, ref_lead3 _ h3, ref_cont, uint32_shiftRight_6]
  · have h4 : c.val.toNat ≤ 0x10FFFF := by omega
    simp only [List.map, ref_lead4 _ h4, ref_cont, uint32_shiftRight_6, uint32_shiftRight_12]

/-! ### Reassembly of the payload bits -/

/-- Joining a shifted high part with a low part that fits below the shift. -/
theorem shiftLeft_or_eq_add (a b k : Nat) (hb : b < 2 ^ k) :
    (a <<< k) ||| b = a * 2 ^ k + b := by
  rw [Nat.shiftLeft_eq, Nat.mul_comm a, Nat.mul_add_lt_is_or hb a]

theorem reassemble_two (x y : Nat) (hx : x < 32) (hy : y < 64) :
    reassemble [0xC0 + x, 0x80 + y] = x * 64 + y := by
  have e0 : (0xC0 + x) % 32 = x := by omega
  have e1 : (0x80 + y) % 64 = y := by omega
  simp only [reassemble, and_0x1F, and_0x3F, e0, e1]
  rw [shiftLeft_or_eq_add x y 6 (by omega)]
  omega

theorem reassemble_three (x y z : Nat) (hx : x < 16) (hy : y < 64) (hz : z < 64) :
    reassemble [0xE0 + x, 0x80 + y, 0x80 + z] = x * 4096 + y * 64 + z := by
  have e0 : (0xE0 + x) % 16 = x := by omega
  have e1 : (0x80 + y) % 64 = y := by omega
  have e2 : (0x80 + z) % 64 = z := by omega
  have s1 : y <<< 6 = y * 64 := Nat.shiftLeft_eq y 6
  simp only [reassemble, and_0x0F, and_0x3F, e0, e1, e2]
  rw [shiftLeft_or_eq_add x (y <<< 6) 12 (by omega), s1]
  have s2 : x * 2 ^ 12 + y * 64 = (x * 64 + y) <<< 6 := by rw [Nat.shiftLeft_eq]; omega
  rw [s2, shiftLeft_or_eq_add _ z 6 (by omega)]
  omega

theorem reassemble_four (x y z w : Nat) (hx : x < 8) (hy : y < 64) (hz : z < 64)
    (hw : w < 64) :
    reassemble [0xF0 + x, 0x80 + y, 0x80 + z, 0x80 + w] =
      x * 262144 + y * 4096 + z * 64 + w := by
  have e0 : (0xF0 + x) % 8 = x := by omega
  have e1 : (0x80 + y) % 64 = y := by omega
  have e2 : (0x80 + z) % 64 = z := by omega
  have e3 : (0x80 + w) % 64 = w := by omega
  have s1 : y <<< 12 = y * 4096 := Nat.shiftLeft_eq y 12
  simp only [reassemble, and_0x07, and_0x3F, e0, e1, e2, e3]
  rw [shiftLeft_or_eq_add x (y <<< 12) 18 (by omega), s1]
  have s2 : x * 2 ^ 18 + y * 4096 = (x * 64 + y) <<< 12 := by rw [Nat.shiftLeft_eq]; omega
  rw [s2, shiftLeft_or_eq_add _ (z <<< 6) 12 (by rw [Nat.shiftLeft_eq]; omega),
    Nat.shiftLeft_eq z 6]
  have s3 : (x * 64 + y) * 2 ^ 12 + z * 2 ^ 6 = ((x * 64 + y) * 64 + z) <<< 6 := by
    rw [Nat.shiftLeft_eq]; omega
  rw [s3, shiftLeft_or_eq_add _ w 6 (by omega)]
  omega

/-! ### Bit patterns of the produced bytes -/

theorem ascii_pattern : ∀ a, a < 128 → a &&& 0x7F = a ∧ a &&& 0x80 = 0 := by decide

theorem cont_pattern : ∀ a, a < 64 → (0x80 + a) &&& 0xC0 = 0x80 ∧ (0x80 + a) &&& 0x3F = a := by
  decide

theorem lead2_pattern : ∀ a, a < 32 → (0xC0 + a) &&& 0xE0 = 0xC0 ∧ (0xC0 + a) &&& 0x1F = a := by
  decide

theorem lead3_pattern : ∀ a, a < 16 → (0xE0 + a) &&& 0xF0 = 0xE0 ∧ (0xE0 + a) &&& 0x0F = a := by
  decide

theorem lead4_pattern : ∀ a, a < 8 → (0xF0 + a) &&& 0xF8 = 0xF0 ∧ (0xF0 + a) &&& 0x07 = a := by
  decide

/-- A continuation byte written as in the source, as a sum. -/
theorem cont_eq (x : Nat) : 0x80 ||| (x &&& 0x3F) = 0x80 + x % 64 := by
  rw [and_0x3F, or_0x80 _ (Nat.mod_lt _ (by decide))]

/-- The value returned by the encoder is the classified length. -/
theorem unicode2UTF8_snd (dest : List Nat) (cp : Nat) :
    (unicode2UTF8 dest cp).2 = getUTF8Size cp := by
  unfold unicode2UTF8
  simp only []
  split <;> rfl

/-- A continuation byte as written in the source has pattern `10xxxxxx` and
carries the selected six bits. -/
theorem cont_byte_pattern (x : Nat) :
    (0x80 ||| (x &&& 0x3F)) &&& 0xC0 = 0x80 ∧
    (0x80 ||| (x &&& 0x3F)) &&& 0x3F = x &&& 0x3F := by
  rw [cont_eq, and_0x3F x]
  exact cont_pattern (x % 64) (Nat.mod_lt _ (by decide))

theorem lead2_eq {cp : Nat} (h : cp ≤ 0x7FF) : 0xC0 ||| (cp >>> 6) = 0xC0 + cp / 64 := by
  rw [shiftRight_6, or_0xC0 _ (by omega)]

theorem lead3_eq {cp : Nat} (h : cp ≤ 0xFFFF) : 0xE0 ||| (cp >>> 12) = 0xE0 + cp / 4096 := by
  rw [shiftRight_12, or_0xE0 _ (by omega)]

theorem lead4_eq {cp : Nat} (h : cp ≤ 0x10FFFF) :
    0xF0 ||| (cp >>> 18) = 0xF0 + cp / 262144 := by
  rw [shiftRight_18, or_0xF0 _ (by omega)]

/-- The leading byte of a two-byte sequence has pattern `110xxxxx`. -/
theorem lead2_byte_pattern {cp : Nat} (h : cp ≤ 0x7FF) :
    (0xC0 ||| (cp >>> 6)) &&& 0xE0 = 0xC0 ∧
    (0xC0 ||| (cp >>> 6)) &&& 0x1F = (cp >>> 6) &&& 0x1F := by
  have hx : cp / 64 < 32 := by omega
  have e : (cp >>> 6) &&& 0x1F = cp / 64 := by rw [shiftRight_6, and_0x1F]; omega
  rw [e, lead2_eq h]
  exact lead2_pattern _ hx

/-- The leading byte of a three-byte sequence has pattern `1110xxxx`. -/
theorem lead3_byte_pattern {cp : Nat} (h : cp ≤ 0xFFFF) :
    (0xE0 ||| (cp >>> 12)) &&& 0xF0 = 0xE0 ∧
    (0xE0 ||| (cp >>> 12)) &&& 0x0F = (cp >>> 12) &&& 0x0F := by
  have hx : cp / 4096 < 16 := by omega
  have e : (cp >>> 12) &&& 0x0F = cp / 4096 := by rw [shiftRight_12, and_0x0F]; omega
  rw [e, lead3_eq h]
  exact lead3_pattern _ hx

/-- The leading byte of a four-byte sequence has pattern `11110xxx`. -/
theorem lead4_byte_pattern {cp : Nat} (h : cp ≤ 0x10FFFF) :
    (0xF0 ||| (cp >>> 18)) &&& 0xF8 = 0xF0 ∧
    (0xF0 ||| (cp >>> 18)) &&& 0x07 = (cp >>> 18) &&& 0x07 := by
  have hx : cp / 262144 < 8 := by omega
  have e : (cp >>> 18) &&& 0x07 = cp / 262144 := by rw [shiftRight_18, and_0x07]; omega
  rw [e, lead4_eq h]
  exact lead4_pattern _ hx

/-! ### The canonical-mask encoder -/

theorem encodeCanonical_size_one {cp : Nat} (dest : List Nat) (h : getUTF8Size cp = 1) :
    encodeCanonical dest cp = (dest.set 0 (toU8 (cp &&& 0x7F)), 1) := by
  simp [encodeCanonical, h]

theorem encodeCanonical_size_two {cp : Nat} (dest : List Nat) (h : getUTF8Size cp = 2) :
    encodeCanonical dest cp =
      ((dest.set 1 (toU8 (0x80 ||| (cp &&& 0x3F)))).set 0
        (toU8 (0xC0 ||| ((cp >>> 6) &&& 0x1F))), 2) := by
  simp [encodeCanonical, h]

theorem encodeCanonical_size_three {cp : Nat} (dest : List Nat) (h : getUTF8Size cp = 3) :
    encodeCanonical dest cp =
      (((dest.set 2 (toU8 (0x80 ||| (cp &&& 0x3F)))).set 1
        (toU8 (0x80 ||| ((cp >>> 6) &&& 0x3F)))).set 0
        (toU8 (0xE0 ||| ((cp >>> 12) &&& 0x0F))), 3) := by
  simp [encodeCanonical, h]

theorem encodeCanonical_size_four {cp : Nat} (dest : List Nat) (h : getUTF8Size cp = 4) :
    encodeCanonical dest cp =
      ((((dest.set 3 (toU8 (0x80 ||| (cp &&& 0x3F)))).set 2
        (toU8 (0x80 ||| ((cp >>> 6) &&& 0x3F)))).set 1
        (toU8 (0x80 ||| ((cp >>> 12) &&& 0x3F)))).set 0
        (toU8 (0xF0 ||| ((cp >>> 18) &&& 0x07))), 4) := by
  simp [encodeCanonical, h]

/-- The classified length determines the range of the code point. -/
theorem getUTF8Size_range (cp : Nat) :
    (getUTF8Size cp = 1 → cp ≤ 0x7F) ∧
    (getUTF8Size cp = 2 → 0x80 ≤ cp ∧ cp ≤ 0x7FF) ∧
    (getUTF8Size cp = 3 → 0x800 ≤ cp ∧ cp ≤ 0xFFFF) ∧
    (getUTF8Size cp = 4 → 0x10000 ≤ cp ∧ cp ≤ 0x10FFFF) ∧
    (getUTF8Size cp = 0 → 0x10FFFF < cp) := by
  unfold getUTF8Size
  refine ⟨?_, ?_, ?_, ?_, ?_⟩ <;> intro h <;> split_ifs at h <;> omega

/-! ### The bytes written by the encoder -/

theorem written_ascii {cp : Nat} {dest : List Nat} (hd : 4 ≤ dest.length) (h : cp ≤ 0x7F) :
    (unicode2UTF8 dest cp).1.take (unicode2UTF8 dest cp).2 = [cp] := by
  rw [unicode2UTF8_ascii hd h]; rfl

theorem written_two {cp : Nat} {dest : List Nat} (hd : 4 ≤ dest.length)
    (h1 : 0x80 ≤ cp) (h2 : cp ≤ 0x7FF) :
    (unicode2UTF8 dest cp).1.take (unicode2UTF8 dest cp).2 =
      [0xC0 + cp / 64, 0x80 + cp % 64] := by
  rw [unicode2UTF8_two hd h1 h2]; rfl

theorem written_three {cp : Nat} {dest : List Nat} (hd : 4 ≤ dest.length)
    (h1 : 0x800 ≤ cp) (h2 : cp ≤ 0xFFFF) :
    (unicode2UTF8 dest cp).1.take (unicode2UTF8 dest cp).2 =
      [0xE0 + cp / 4096, 0x80 + cp / 64 % 64, 0x80 + cp % 64] := by
  rw [unicode2UTF8_three hd h1 h2]; rfl

theorem written_four {cp : Nat} {dest : List Nat} (hd : 4 ≤ dest.length)
    (h1 : 0x10000 ≤ cp) (h2 : cp ≤ 0x10FFFF) :
    (unicode2UTF8 dest cp).1.take (unicode2UTF8 dest cp).2 =
      [0xF0 + cp / 262144, 0x80 + cp / 4096 % 64, 0x80 + cp / 64 % 64, 0x80 + cp % 64] := by
  rw [unicode2UTF8_four hd h1 h2]; rfl

theorem written_none {cp : Nat} (dest : List Nat) (h : 0x10FFFF < cp) :
    (unicode2UTF8 dest cp).1.take (unicode2UTF8 dest cp).2 = [] := by
  rw [unicode2UTF8_size_zero dest (getUTF8Size_eq_zero h)]; rfl

/-- The written bytes of an in-range code point, by length class. -/
theorem written_cases {cp : Nat} {dest : List Nat} (hd : 4 ≤ dest.length)
    (hcp : cp ≤ 0x10FFFF) :
    (cp ≤ 0x7F ∧ (unicode2UTF8 dest cp).1.take (unicode2UTF8 dest cp).2 = [cp]) ∨
    (0x80 ≤ cp ∧ cp ≤ 0x7FF ∧ (unicode2UTF8 dest cp).1.take (unicode2UTF8 dest cp).2 =
      [0xC0 + cp / 64, 0x80 + cp % 64]) ∨
    (0x800 ≤ cp ∧ cp ≤ 0xFFFF ∧ (unicode2UTF8 dest cp).1.take (unicode2UTF8 dest cp).2 =
      [0xE0 + cp / 4096, 0x80 + cp / 64 % 64, 0x80 + cp % 64]) ∨
    (0x10000 ≤ cp ∧ (unicode2UTF8 dest cp).1.take (unicode2UTF8 dest cp).2 =
      [0xF0 + cp / 262144, 0x80 + cp / 4096 % 64, 0x80 + cp / 64 % 64, 0x80 + cp % 64]) := by
  by_cases h1 : cp ≤ 0x7F
  · exact Or.inl ⟨h1, written_ascii hd h1⟩
  by_cases h2 : cp ≤ 0x7FF
  · exact Or.inr (Or.inl ⟨by omega, h2, written_two hd (by omega) h2⟩)
  by_cases h3 : cp ≤ 0xFFFF
  · exact Or.inr (Or.inr (Or.inl ⟨by omega, h3, written_three hd (by omega) h3⟩))
  · exact Or.inr (Or.inr (Or.inr ⟨by omega, written_four hd (by omega) hcp⟩))

/-- Every written byte fits in eight bits, and the returned count is the number
of written bytes. -/
theorem written_bytes_lt {cp : Nat} {dest : List Nat} (hd : 4 ≤ dest.length) :
    ∀ b ∈ (unicode2UTF8 dest cp).1.take (unicode2UTF8 dest cp).2, b < 256 := by
  by_cases hcp : cp ≤ 0x10FFFF
  · rcases written_cases hd hcp with ⟨h, e⟩ | ⟨h1, h2, e⟩ | ⟨h1, h2, e⟩ | ⟨h1, e⟩ <;>
      rw [e] <;> simp <;> omega
  · rw [written_none dest (by omega)]; simp

/-! ### The output entry points -/

/-- The loop of `printU32` hands `buf[0 .. size-1]` to `putchar` in index order. -/
theorem printLoop_eq (buf : List Nat) (out : List Nat) :
    ∀ size : Nat, size ≤ buf.length →
      (List.range size).foldl (fun out i => putchar out (buf.getD i 0)) out =
        out ++ (buf.take size).map (fun b => b % 256) := by
  intro size
  induction size with
  | zero => intro _; simp
  | succ n ih =>
    intro h
    have hn : n < buf.length := h
    rw [List.range_succ, List.foldl_append, ih (Nat.le_of_lt hn)]
    simp only [List.foldl_cons, List.foldl_nil, putchar]
    rw [List.take_succ, List.getD_eq_getElem?_getD, List.getElem?_eq_getElem hn]
    simp only [Option.getD_some, Option.toList_some, List.map_append, List.map_cons,
      List.map_nil, List.append_assoc]

theorem unicode2UTF8_length (dest : List Nat) (cp : Nat) :
    (unicode2UTF8 dest cp).1.length = dest.length := by
  have hle := getUTF8Size_le_four cp
  generalize hs : getUTF8Size cp = n at hle
  interval_cases n
  · rw [unicode2UTF8_size_zero dest hs]
  · rw [unicode2UTF8_size_one dest hs]; simp
  · rw [unicode2UTF8_size_two dest hs]; simp
  · rw [unicode2UTF8_size_three dest hs]; simp
  · rw [unicode2UTF8_size_four dest hs]; simp

/-- The stream after `printU32`: the bytes written by the encoder are appended. -/
theorem printU32_out (fl : Int) {buf : List Nat} (out : List Nat) (a : Nat)
    (hbuf : 4 ≤ buf.length) :
    (printU32 fl buf out a).out =
      out ++ (unicode2UTF8 buf a).1.take (unicode2UTF8 buf a).2 := by
  have hsize : (unicode2UTF8 buf a).2 ≤ (unicode2UTF8 buf a).1.length := by
    rw [unicode2UTF8_length, unicode2UTF8_snd]
    exact Nat.le_trans (getUTF8Size_le_four a) hbuf
  have hmap : ((unicode2UTF8 buf a).1.take (unicode2UTF8 buf a).2).map (fun b => b % 256) =
      (unicode2UTF8 buf a).1.take (unicode2UTF8 buf a).2 := by
    conv_rhs => rw [← List.map_id ((unicode2UTF8 buf a).1.take (unicode2UTF8 buf a).2)]
    apply List.map_congr_left
    intro b hb
    exact Nat.mod_eq_of_lt (written_bytes_lt hbuf b hb)
  unfold printU32 MF abort
  simp only []
  rw [printLoop_eq _ _ _ hsize, hmap]
  split <;> rfl

/-- The only abort of `printU32` is the one for a failed flush. -/
theorem printU32_aborted (fl : Int) (buf : List Nat) (out : List Nat) (a : Nat) :
    (printU32 fl buf out a).aborted = decide (fl ≠ 0) := by
  unfold printU32 MF abort
  simp only []
  split <;> simp [*]

/-- The written bytes do not depend on the buffer they are written into. -/
theorem written_indep {cp : Nat} {d1 d2 : List Nat} (h1 : 4 ≤ d1.length) (h2 : 4 ≤ d2.length) :
    (unicode2UTF8 d1 cp).1.take (unicode2UTF8 d1 cp).2 =
      (unicode2UTF8 d2 cp).1.take (unicode2UTF8 d2 cp).2 := by
  by_cases hcp : cp ≤ 0x10FFFF
  · by_cases c1 : cp ≤ 0x7F
    · rw [written_ascii h1 c1, written_ascii h2 c1]
    by_cases c2 : cp ≤ 0x7FF
    · rw [written_two h1 (by omega) c2, written_two h2 (by omega) c2]
    by_cases c3 : cp ≤ 0xFFFF
    · rw [written_three h1 (by omega) c3, written_three h2 (by omega) c3]
    · rw [written_four h1 (by omega) hcp, written_four h2 (by omega) hcp]
  · rw [written_none d1 (by omega), written_none d2 (by omega)]

/-- The outcome of `printU32` in closed form. -/
theorem printU32_eq (fl : Int) {buf : List Nat} (out : List Nat) (a : Nat)
    (hbuf : 4 ≤ buf.length) :
    printU32 fl buf out a =
      { aborted := decide (fl ≠ 0),
        out := out ++ (unicode2UTF8 buf a).1.take (unicode2UTF8 buf a).2 } := by
  have h1 := printU32_out fl out a hbuf
  have h2 := printU32_aborted fl buf out a
  cases h : printU32 fl buf out a with
  | mk ab o =>
    rw [h] at h1 h2
    simp only at h1 h2
    rw [h1, h2]

/-- With a successful flush, `printU64` aborts exactly on the values that fail
the source's test `a < UINT32_MAX`. -/
theorem printU64_aborted_iff (buf : List Nat) (out : List Nat) (a : Nat) :
    (printU64 0 buf out a).aborted = true ↔ 0xFFFFFFFF ≤ a := by
  unfold printU64 UINT32_MAX
  split
  · rw [printU32_aborted]; simp; omega
  · simp [abort]; omega

/-! ### Prefix-freeness and order of the written bytes -/

/-- If the bytes written for one in-range code point are a prefix of those
written for another, the two code points are equal. -/
theorem written_prefix_eq {a b : Nat} {da db : List Nat} (hda : 4 ≤ da.length)
    (hdb : 4 ≤ db.length) (ha : a ≤ 0x10FFFF) (hb : b ≤ 0x10FFFF)
    (hp : (unicode2UTF8 da a).1.take (unicode2UTF8 da a).2 <+:
      (unicode2UTF8 db b).1.take (unicode2UTF8 db b).2) : a = b := by
  rcases written_cases hda ha with ⟨a1, wa⟩ | ⟨a1, a2, wa⟩ | ⟨a1, a2, wa⟩ | ⟨a1, wa⟩ <;>
    rcases written_cases hdb hb with ⟨b1, wb⟩ | ⟨b1, b2, wb⟩ | ⟨b1, b2, wb⟩ | ⟨b1, wb⟩ <;>
    rw [wa, wb] at hp <;>
    simp only [List.cons_prefix_cons, List.prefix_nil, List.nil_prefix, and_true,
      reduceCtorEq, and_false] at hp <;>
    omega

/-- The bytes written for an in-range code point are not empty. -/
theorem written_ne_nil {a : Nat} {da : List Nat} (hda : 4 ≤ da.length) (ha : a ≤ 0x10FFFF) :
    (unicode2UTF8 da a).1.take (unicode2UTF8 da a).2 ≠ [] := by
  rcases written_cases hda ha with ⟨_, w⟩ | ⟨_, _, w⟩ | ⟨_, _, w⟩ | ⟨_, w⟩ <;>
    rw [w] <;> exact List.cons_ne_nil _ _

/-- A concatenation of code words of a prefix-free code with non-empty words
determines the sequence of encoded symbols. -/
theorem flatMap_inj_of_prefix_free (f : Nat → List Nat) (S : Nat → Prop)
    (hne : ∀ a, S a → f a ≠ [])
    (hpf : ∀ a b, S a → S b → f a <+: f b → a = b) :
    ∀ xs ys : List Nat, (∀ a ∈ xs, S a) → (∀ b ∈ ys, S b) →
      xs.flatMap f = ys.flatMap f → xs = ys := by
  intro xs
  induction xs with
  | nil =>
    intro ys _ hy h
    cases ys with
    | nil => rfl
    | cons y ys =>
      exfalso
      rw [List.flatMap_nil, List.flatMap_cons] at h
      have h2 : f y = [] := (List.append_eq_nil.mp h.symm).1
      exact hne y (hy y (List.mem_cons_self y ys)) h2
  | cons x xs ih =>
    intro ys hx hy h
    cases ys with
    | nil =>
      exfalso
      rw [List.flatMap_nil, List.flatMap_cons] at h
      have h2 : f x = [] := (List.append_eq_nil.mp h).1
      exact hne x (hx x (List.mem_cons_self x xs)) h2
    | cons y ys =>
      rw [List.flatMap_cons, List.flatMap_cons] at h
      have sx := hx x (List.mem_cons_self x xs)
      have sy := hy y (List.mem_cons_self y ys)
      have p1 : f x <+: f x ++ xs.flatMap f := List.prefix_append _ _
      have p2 : f y <+: f x ++ xs.flatMap f := by rw [h]; exact List.prefix_append _ _
      have hxy : x = y := by
        rcases List.prefix_or_prefix_of_prefix p1 p2 with q | q
        · exact hpf x y sx sy q
        · exact (hpf y x sy sx q).symm
      subst hxy
      have ht : xs.flatMap f = ys.flatMap f := List.append_cancel_left h
      rw [ih ys (fun a ha => hx a (List.mem_cons_of_mem _ ha))
        (fun b hb => hy b (List.mem_cons_of_mem _ hb)) ht]

/-- Printing a sequence of code points with `printU32` appends the
concatenation of their written bytes. -/
theorem printU32_foldl (fl : Int) {buf : List Nat} (hbuf : 4 ≤ buf.length) (cps : List Nat) :
    ∀ out : List Nat,
      cps.foldl (fun out cp => (printU32 fl buf out cp).out) out =
        out ++ cps.flatMap
          (fun cp => (unicode2UTF8 buf cp).1.take (unicode2UTF8 buf cp).2) := by
  induction cps with
  | nil => intro out; simp
  | cons c cs ih =>
    intro out
    rw [List.foldl_cons, ih, printU32_out fl out c hbuf, List.flatMap_cons, List.append_assoc]

theorem lex_two {x1 y1 x2 y2 : Nat} (h : x1 < x2 ∨ (x1 = x2 ∧ y1 < y2)) :
    List.Lex (· < ·) [x1, y1] [x2, y2] := by
  rcases h with h | ⟨rfl, h⟩
  · exact List.Lex.rel h
  · exact List.Lex.cons (List.Lex.rel h)

theorem lex_three {x1 y1 z1 x2 y2 z2 : Nat}
    (h : x1 < x2 ∨ (x1 = x2 ∧ (y1 < y2 ∨ (y1 = y2 ∧ z1 < z2)))) :
    List.Lex (· < ·) [x1, y1, z1] [x2, y2, z2] := by
  rcases h with h | ⟨rfl, h⟩
  · exact List.Lex.rel h
  · exact List.Lex.cons (lex_two h)

theorem lex_four {x1 y1 z1 w1 x2 y2 z2 w2 : Nat}
    (h : x1 < x2 ∨ (x1 = x2 ∧ (y1 < y2 ∨ (y1 = y2 ∧ (z1 < z2 ∨ (z1 = z2 ∧ w1 < w2)))))) :
    List.Lex (· < ·) [x1, y1, z1, w1] [x2, y2, z2, w2] := by
  rcases h with h | ⟨rfl, h⟩
  · exact List.Lex.rel h
  · exact List.Lex.cons (lex_three h)

/-! ## Theorems -/

/-- C1. For every 32-bit code point the classifier returns 1 on `0..0x7F`,
2 on `0x80..0x7FF`, 3 on `0x800..0xFFFF`, 4 on `0x10000..0x10FFFF` and 0 on
everything above; the result is always one of 0, 1, 2, 3, 4. -/
theorem getUTF8Size_spec (cp : Nat) (hcp : cp < 2 ^ 32) :
    (cp ≤ 0x7F → getUTF8Size cp = 1) ∧
    (0x80 ≤ cp ∧ cp ≤ 0x7FF → getUTF8Size cp = 2) ∧
    (0x800 ≤ cp ∧ cp ≤ 0xFFFF → getUTF8Size cp = 3) ∧
    (0x10000 ≤ cp ∧ cp ≤ 0x10FFFF → getUTF8Size cp = 4) ∧
    (0x10FFFF < cp → getUTF8Size cp = 0) ∧
    getUTF8Size cp ∈ [0, 1, 2, 3, 4] := by
  unfold getUTF8Size
  refine ⟨?_, ?_, ?_, ?_, ?_, ?_⟩
  all_goals split_ifs <;> first | omega | simp

theorem getUTF8Size_spec_witness :
    0x10FFFF < 2 ^ 32 ∧
    (0x10FFFF ≤ 0x7F → getUTF8Size 0x10FFFF = 1) ∧
    (0x80 ≤ 0x10FFFF ∧ 0x10FFFF ≤ 0x7FF → getUTF8Size 0x10FFFF = 2) ∧
    (0x800 ≤ 0x10FFFF ∧ 0x10FFFF ≤ 0xFFFF → getUTF8Size 0x10FFFF = 3) ∧
    (0x10000 ≤ 0x10FFFF ∧ 0x10FFFF ≤ 0x10FFFF → getUTF8Size 0x10FFFF = 4) ∧
    (0x10FFFF < 0x10FFFF → getUTF8Size 0x10FFFF = 0) ∧
    getUTF8Size 0x10FFFF ∈ [0, 1, 2, 3, 4] :=
  ⟨by decide, getUTF8Size_spec 0x10FFFF (by decide)⟩

/-- C2. For every Unicode scalar value (`0..0xD7FF` or `0xE000..0x10FFFF`) and
every buffer of at least four bytes, the bytes of the buffer covered by the
returned count are exactly the UTF-8 encoding of that character as computed by
the library encoder `String.utf8EncodeChar`. -/
theorem unicode2UTF8_eq_utf8EncodeChar (cp : Nat) (dest : List Nat)
    (hcp : cp ≤ 0xD7FF ∨ (0xE000 ≤ cp ∧ cp ≤ 0x10FFFF)) (hd : 4 ≤ dest.length) :
    (unicode2UTF8 dest cp).1.take (unicode2UTF8 dest cp).2 =
      (String.utf8EncodeChar (Char.ofNat cp)).map UInt8.toNat := by
  have hvalid : cp.isValidChar := by
    rcases hcp with h | ⟨h1, h2⟩
    · exact Or.inl (by omega)
    · exact Or.inr ⟨by omega, by omega⟩
  have hle : cp ≤ 0x10FFFF := by omega
  rw [utf8EncodeChar_toNat, char_ofNat_val_toNat hvalid]
  split_ifs with h1 h2 h3
  · rw [unicode2UTF8_ascii hd h1]; rfl
  · rw [unicode2UTF8_two hd (by omega) h2]; rfl
  · rw [unicode2UTF8_three hd (by omega) h3]; rfl
  · rw [unicode2UTF8_four hd (by omega) hle]; rfl

theorem unicode2UTF8_eq_utf8EncodeChar_witness :
    (0x20AC ≤ 0xD7FF ∨ (0xE000 ≤ 0x20AC ∧ 0x20AC ≤ 0x10FFFF)) ∧
    4 ≤ [0, 0, 0, 0].length ∧
    (unicode2UTF8 [0, 0, 0, 0] 0x20AC).1.take (unicode2UTF8 [0, 0, 0, 0] 0x20AC).2 =
      (String.utf8EncodeChar (Char.ofNat 0x20AC)).map UInt8.toNat :=
  ⟨by decide, by decide,
    unicode2UTF8_eq_utf8EncodeChar 0x20AC [0, 0, 0, 0] (by decide) (by decide)⟩

/-- C3. Round trip: for every code point in `0..0x10FFFF` (and a buffer of at
least four bytes), reassembling the payload bits of the bytes written by the
encoder gives back the code point. -/
theorem reassemble_unicode2UTF8 (cp : Nat) (dest : List Nat)
    (hcp : cp ≤ 0x10FFFF) (hd : 4 ≤ dest.length) :
    reassemble ((unicode2UTF8 dest cp).1.take (unicode2UTF8 dest cp).2) = cp := by
  by_cases h1 : cp ≤ 0x7F
  · rw [unicode2UTF8_ascii hd h1]; rfl
  by_cases h2 : cp ≤ 0x7FF
  · rw [unicode2UTF8_two hd (by omega) h2]
    show reassemble [0xC0 + cp / 64, 0x80 + cp % 64] = cp
    rw [reassemble_two _ _ (by omega) (by omega)]; omega
  by_cases h3 : cp ≤ 0xFFFF
  · rw [unicode2UTF8_three hd (by omega) h3]
    show reassemble [0xE0 + cp / 4096, 0x80 + cp / 64 % 64, 0x80 + cp % 64] = cp
    rw [reassemble_three _ _ _ (by omega) (by omega) (by omega)]; omega
  · rw [unicode2UTF8_four hd (by omega) hcp]
    show reassemble [0xF0 + cp / 262144, 0x80 + cp / 4096 % 64, 0x80 + cp / 64 % 64,
      0x80 + cp % 64] = cp
    rw [reassemble_four _ _ _ _ (by omega) (by omega) (by omega) (by omega)]; omega

theorem reassemble_unicode2UTF8_witness :
    0xDFFF ≤ 0x10FFFF ∧ 4 ≤ [1, 2, 3, 4, 5].length ∧
    reassemble ((unicode2UTF8 [1, 2, 3, 4, 5] 0xDFFF).1.take
      (unicode2UTF8 [1, 2, 3, 4, 5] 0xDFFF).2) = 0xDFFF :=
  ⟨by decide, by decide, reassemble_unicode2UTF8 0xDFFF [1, 2, 3, 4, 5] (by decide) (by decide)⟩

/-- C4. For every 32-bit code point and every buffer the encoder returns the
classified length `getUTF8Size cp`, a value between 0 and 4; it is a total
function.  The returned count is the number of bytes written: there is a byte
string of that length, depending on the code point only, that replaces the
first bytes of any buffer of at least four bytes and leaves the rest in place. -/
theorem unicode2UTF8_returns_size (cp : Nat) (hcp : cp < 2 ^ 32) :
    (∀ dest : List Nat, (unicode2UTF8 dest cp).2 = getUTF8Size cp ∧
      0 ≤ (unicode2UTF8 dest cp).2 ∧ (unicode2UTF8 dest cp).2 ≤ 4) ∧
    ∃ bytes : List Nat, bytes.length = getUTF8Size cp ∧
      ∀ dest : List Nat, 4 ≤ dest.length →
        (unicode2UTF8 dest cp).1 = bytes ++ dest.drop (getUTF8Size cp) := by
  refine ⟨fun dest => ⟨unicode2UTF8_snd dest cp, Nat.zero_le _, ?_⟩, ?_⟩
  · rw [unicode2UTF8_snd]; exact getUTF8Size_le_four cp
  by_cases h1 : cp ≤ 0x7F
  · refine ⟨[cp], (getUTF8Size_eq_one h1).symm, fun dest hd => ?_⟩
    rw [unicode2UTF8_ascii hd h1, getUTF8Size_eq_one h1]; rfl
  by_cases h2 : cp ≤ 0x7FF
  · have hs := getUTF8Size_eq_two (by omega) h2
    refine ⟨[0xC0 + cp / 64, 0x80 + cp % 64], hs.symm, fun dest hd => ?_⟩
    rw [unicode2UTF8_two hd (by omega) h2, hs]; rfl
  by_cases h3 : cp ≤ 0xFFFF
  · have hs := getUTF8Size_eq_three (by omega) h3
    refine ⟨[0xE0 + cp / 4096, 0x80 + cp / 64 % 64, 0x80 + cp % 64], hs.symm,
      fun dest hd => ?_⟩
    rw [unicode2UTF8_three hd (by omega) h3, hs]; rfl
  by_cases h4 : cp ≤ 0x10FFFF
  · have hs := getUTF8Size_eq_four (by omega) h4
    refine ⟨[0xF0 + cp / 262144, 0x80 + cp / 4096 % 64, 0x80 + cp / 64 % 64,
      0x80 + cp % 64], hs.symm, fun dest hd => ?_⟩
    rw [unicode2UTF8_four hd (by omega) h4, hs]; rfl
  · have hs := getUTF8Size_eq_zero (Nat.lt_of_not_le h4)
    refine ⟨[], hs.symm, fun dest _ => ?_⟩
    rw [unicode2UTF8_size_zero dest hs, hs]; rfl

theorem unicode2UTF8_returns_size_witness :
    0xFFFFFFFF < 2 ^ 32 ∧
    ((∀ dest : List Nat, (unicode2UTF8 dest 0xFFFFFFFF).2 = getUTF8Size 0xFFFFFFFF ∧
      0 ≤ (unicode2UTF8 dest 0xFFFFFFFF).2 ∧ (unicode2UTF8 dest 0xFFFFFFFF).2 ≤ 4) ∧
    ∃ bytes : List Nat, bytes.length = getUTF8Size 0xFFFFFFFF ∧
      ∀ dest : List Nat, 4 ≤ dest.length →
        (unicode2UTF8 dest 0xFFFFFFFF).1 = bytes ++ dest.drop (getUTF8Size 0xFFFFFFFF)) :=
  ⟨by decide, unicode2UTF8_returns_size 0xFFFFFFFF (by decide)⟩

/-- C5. For every code point in `0..0x7F` the classified length is 1 and the
encoder returns 1 and stores exactly one byte, `dest[0] = cp`, which is the low
seven bits of the code point and has its high bit clear. -/
theorem unicode2UTF8_one_byte (cp : Nat) (dest : List Nat)
    (hcp : cp ≤ 0x7F) (hd : 4 ≤ dest.length) :
    getUTF8Size cp = 1 ∧
    unicode2UTF8 dest cp = (cp :: dest.drop 1, 1) ∧
    cp = cp &&& 0x7F ∧ cp &&& 0x80 = 0 :=
  ⟨getUTF8Size_eq_one hcp, unicode2UTF8_ascii hd hcp,
    (ascii_pattern cp (by omega)).1.symm, (ascii_pattern cp (by omega)).2⟩

theorem unicode2UTF8_one_byte_witness :
    0x41 ≤ 0x7F ∧ 4 ≤ [9, 9, 9, 9].length ∧
    (getUTF8Size 0x41 = 1 ∧
    unicode2UTF8 [9, 9, 9, 9] 0x41 = (0x41 :: [9, 9, 9, 9].drop 1, 1) ∧
    0x41 = 0x41 &&& 0x7F ∧ 0x41 &&& 0x80 = 0) :=
  ⟨by decide, by decide, unicode2UTF8_one_byte 0x41 [9, 9, 9, 9] (by decide) (by decide)⟩

/-- C6. For every code point in `0x80..0x7FF` the classified length is 2 and
the encoder returns 2 with `dest[0] = 0xC0 | (cp >> 6)`, of pattern `110xxxxx`
and carrying bits 6-10 of the code point, and `dest[1] = 0x80 | (cp & 0x3F)`, of
pattern `10xxxxxx` and carrying bits 0-5. -/
theorem unicode2UTF8_two_bytes (cp : Nat) (dest : List Nat)
    (h1 : 0x80 ≤ cp) (h2 : cp ≤ 0x7FF) (hd : 4 ≤ dest.length) :
    getUTF8Size cp = 2 ∧
    unicode2UTF8 dest cp =
      ((0xC0 ||| (cp >>> 6)) :: (0x80 ||| (cp &&& 0x3F)) :: dest.drop 2, 2) ∧
    (0xC0 ||| (cp >>> 6)) &&& 0xE0 = 0xC0 ∧
    (0xC0 ||| (cp >>> 6)) &&& 0x1F = (cp >>> 6) &&& 0x1F ∧
    (0x80 ||| (cp &&& 0x3F)) &&& 0xC0 = 0x80 ∧
    (0x80 ||| (cp &&& 0x3F)) &&& 0x3F = cp &&& 0x3F := by
  refine ⟨getUTF8Size_eq_two h1 h2, ?_, (lead2_byte_pattern h2).1, (lead2_byte_pattern h2).2,
    (cont_byte_pattern cp).1, (cont_byte_pattern cp).2⟩
  rw [lead2_eq h2, cont_eq]
  exact unicode2UTF8_two hd h1 h2

theorem unicode2UTF8_two_bytes_witness :
    0x80 ≤ 0xE9 ∧ 0xE9 ≤ 0x7FF ∧ 4 ≤ [9, 9, 9, 9].length ∧
    (getUTF8Size 0xE9 = 2 ∧
    unicode2UTF8 [9, 9, 9, 9] 0xE9 =
      ((0xC0 ||| (0xE9 >>> 6)) :: (0x80 ||| (0xE9 &&& 0x3F)) :: [9, 9, 9, 9].drop 2, 2) ∧
    (0xC0 ||| (0xE9 >>> 6)) &&& 0xE0 = 0xC0 ∧
    (0xC0 ||| (0xE9 >>> 6)) &&& 0x1F = (0xE9 >>> 6) &&& 0x1F ∧
    (0x80 ||| (0xE9 &&& 0x3F)) &&& 0xC0 = 0x80 ∧
    (0x80 ||| (0xE9 &&& 0x3F)) &&& 0x3F = 0xE9 &&& 0x3F) :=
  ⟨by decide, by decide, by decide,
    unicode2UTF8_two_bytes 0xE9 [9, 9, 9, 9] (by decide) (by decide) (by decide)⟩

/-- C7. For every code point in `0x800..0xFFFF` the classified length is 3 and
the encoder returns 3 with `dest[0] = 0xE0 | (cp >> 12)`, of pattern `1110xxxx`
and carrying bits 12-15, `dest[1] = 0x80 | ((cp >> 6) & 0x3F)` and
`dest[2] = 0x80 | (cp & 0x3F)`, both of pattern `10xxxxxx`. -/
theorem unicode2UTF8_three_bytes (cp : Nat) (dest : List Nat)
    (h1 : 0x800 ≤ cp) (h2 : cp ≤ 0xFFFF) (hd : 4 ≤ dest.length) :
    getUTF8Size cp = 3 ∧
    unicode2UTF8 dest cp =
      ((0xE0 ||| (cp >>> 12)) :: (0x80 ||| ((cp >>> 6) &&& 0x3F)) ::
        (0x80 ||| (cp &&& 0x3F)) :: dest.drop 3, 3) ∧
    (0xE0 ||| (cp >>> 12)) &&& 0xF0 = 0xE0 ∧
    (0xE0 ||| (cp >>> 12)) &&& 0x0F = (cp >>> 12) &&& 0x0F ∧
    (0x80 ||| ((cp >>> 6) &&& 0x3F)) &&& 0xC0 = 0x80 ∧
    (0x80 ||| ((cp >>> 6) &&& 0x3F)) &&& 0x3F = (cp >>> 6) &&& 0x3F ∧
    (0x80 ||| (cp &&& 0x3F)) &&& 0xC0 = 0x80 ∧
    (0x80 ||| (cp &&& 0x3F)) &&& 0x3F = cp &&& 0x3F := by
  refine ⟨getUTF8Size_eq_three h1 h2, ?_, (lead3_byte_pattern h2).1,
    (lead3_byte_pattern h2).2, (cont_byte_pattern (cp >>> 6)).1,
    (cont_byte_pattern (cp >>> 6)).2, (cont_byte_pattern cp).1, (cont_byte_pattern cp).2⟩
  rw [lead3_eq h2, cont_eq, cont_eq, shiftRight_6]
  exact unicode2UTF8_three hd h1 h2

theorem unicode2UTF8_three_bytes_witness :
    0x800 ≤ 0x4E2D ∧ 0x4E2D ≤ 0xFFFF ∧ 4 ≤ [9, 9, 9, 9].length ∧
    (getUTF8Size 0x4E2D = 3 ∧
    unicode2UTF8 [9, 9, 9, 9] 0x4E2D =
      ((0xE0 ||| (0x4E2D >>> 12)) :: (0x80 ||| ((0x4E2D >>> 6) &&& 0x3F)) ::
        (0x80 ||| (0x4E2D &&& 0x3F)) :: [9, 9, 9, 9].drop 3, 3) ∧
    (0xE0 ||| (0x4E2D >>> 12)) &&& 0xF0 = 0xE0 ∧
    (0xE0 ||| (0x4E2D >>> 12)) &&& 0x0F = (0x4E2D >>> 12) &&& 0x0F ∧
    (0x80 ||| ((0x4E2D >>> 6) &&& 0x3F)) &&& 0xC0 = 0x80 ∧
    (0x80 ||| ((0x4E2D >>> 6) &&& 0x3F)) &&& 0x3F = (0x4E2D >>> 6) &&& 0x3F ∧
    (0x80 ||| (0x4E2D &&& 0x3F)) &&& 0xC0 = 0x80 ∧
    (0x80 ||| (0x4E2D &&& 0x3F)) &&& 0x3F = 0x4E2D &&& 0x3F) :=
  ⟨by decide, by decide, by decide,
    unicode2UTF8_three_bytes 0x4E2D [9, 9, 9, 9] (by decide) (by decide) (by decide)⟩

/-- C8. For every code point in `0x10000..0x10FFFF` the classified length is 4
and the encoder returns 4 with `dest[0] = 0xF0 | (cp >> 18)`, of pattern
`11110xxx` and carrying bits 18-20, and `dest[1] = 0x80 | ((cp >> 12) & 0x3F)`,
`dest[2] = 0x80 | ((cp >> 6) & 0x3F)`, `dest[3] = 0x80 | (cp & 0x3F)`, each of
pattern `10xxxxxx`. -/
theorem unicode2UTF8_four_bytes (cp : Nat) (dest : List Nat)
    (h1 : 0x10000 ≤ cp) (h2 : cp ≤ 0x10FFFF) (hd : 4 ≤ dest.length) :
    getUTF8Size cp = 4 ∧
    unicode2UTF8 dest cp =
      ((0xF0 ||| (cp >>> 18)) :: (0x80 ||| ((cp >>> 12) &&& 0x3F)) ::
        (0x80 ||| ((cp >>> 6) &&& 0x3F)) :: (0x80 ||| (cp &&& 0x3F)) :: dest.drop 4, 4) ∧
    (0xF0 ||| (cp >>> 18)) &&& 0xF8 = 0xF0 ∧
    (0xF0 ||| (cp >>> 18)) &&& 0x07 = (cp >>> 18) &&& 0x07 ∧
    (0x80 ||| ((cp >>> 12) &&& 0x3F)) &&& 0xC0 = 0x80 ∧
    (0x80 ||| ((cp >>> 12) &&& 0x3F)) &&& 0x3F = (cp >>> 12) &&& 0x3F ∧
    (0x80 ||| ((cp >>> 6) &&& 0x3F)) &&& 0xC0 = 0x80 ∧
    (0x80 ||| ((cp >>> 6) &&& 0x3F)) &&& 0x3F = (cp >>> 6) &&& 0x3F ∧
    (0x80 ||| (cp &&& 0x3F)) &&& 0xC0 = 0x80 ∧
    (0x80 ||| (cp &&& 0x3F)) &&& 0x3F = cp &&& 0x3F := by
  refine ⟨getUTF8Size_eq_four h1 h2, ?_, (lead4_byte_pattern h2).1,
    (lead4_byte_pattern h2).2, (cont_byte_pattern (cp >>> 12)).1,
    (cont_byte_pattern (cp >>> 12)).2, (cont_byte_pattern (cp >>> 6)).1,
    (cont_byte_pattern (cp >>> 6)).2, (cont_byte_pattern cp).1, (cont_byte_pattern cp).2⟩
  rw [lead4_eq h2, cont_eq, cont_eq, cont_eq, shiftRight_6, shiftRight_12]
  exact unicode2UTF8_four hd h1 h2

theorem unicode2UTF8_four_bytes_witness :
    0x10000 ≤ 0x1F600 ∧ 0x1F600 ≤ 0x10FFFF ∧ 4 ≤ [9, 9, 9, 9].length ∧
    (getUTF8Size 0x1F600 = 4 ∧
    unicode2UTF8 [9, 9, 9, 9] 0x1F600 =
      ((0xF0 ||| (0x1F600 >>> 18)) :: (0x80 ||| ((0x1F600 >>> 12) &&& 0x3F)) ::
        (0x80 ||| ((0x1F600 >>> 6) &&& 0x3F)) :: (0x80 ||| (0x1F600 &&& 0x3F)) ::
        [9, 9, 9, 9].drop 4, 4) ∧
    (0xF0 ||| (0x1F600 >>> 18)) &&& 0xF8 = 0xF0 ∧
    (0xF0 ||| (0x1F600 >>> 18)) &&& 0x07 = (0x1F600 >>> 18) &&& 0x07 ∧
    (0x80 ||| ((0x1F600 >>> 12) &&& 0x3F)) &&& 0xC0 = 0x80 ∧
    (0x80 ||| ((0x1F600 >>> 12) &&& 0x3F)) &&& 0x3F = (0x1F600 >>> 12) &&& 0x3F ∧
    (0x80 ||| ((0x1F600 >>> 6) &&& 0x3F)) &&& 0xC0 = 0x80 ∧
    (0x80 ||| ((0x1F600 >>> 6) &&& 0x3F)) &&& 0x3F = (0x1F600 >>> 6) &&& 0x3F ∧
    (0x80 ||| (0x1F600 &&& 0x3F)) &&& 0xC0 = 0x80 ∧
    (0x80 ||| (0x1F600 &&& 0x3F)) &&& 0x3F = 0x1F600 &&& 0x3F) :=
  ⟨by decide, by decide, by decide,
    unicode2UTF8_four_bytes 0x1F600 [9, 9, 9, 9] (by decide) (by decide) (by decide)⟩

/-- C9. For every 32-bit code point above `0x10FFFF` the classified length is
0, and the encoder returns 0 and leaves the whole buffer as it was. -/
theorem unicode2UTF8_out_of_range (cp : Nat) (dest : List Nat)
    (_hcp : cp < 2 ^ 32) (h : 0x10FFFF < cp) :
    getUTF8Size cp = 0 ∧ (unicode2UTF8 dest cp).2 = 0 ∧ (unicode2UTF8 dest cp).1 = dest := by
  have hs := getUTF8Size_eq_zero h
  rw [unicode2UTF8_size_zero dest hs]
  exact ⟨hs, rfl, rfl⟩

theorem unicode2UTF8_out_of_range_witness :
    0x110000 < 2 ^ 32 ∧ 0x10FFFF < 0x110000 ∧
    (getUTF8Size 0x110000 = 0 ∧ (unicode2UTF8 [1, 2, 3, 4] 0x110000).2 = 0 ∧
      (unicode2UTF8 [1, 2, 3, 4] 0x110000).1 = [1, 2, 3, 4]) :=
  ⟨by decide, by decide,
    unicode2UTF8_out_of_range 0x110000 [1, 2, 3, 4] (by decide) (by decide)⟩

/-- C10. Frame: for every 32-bit code point and every buffer of at least four
bytes, each byte at an index not below the returned count holds the same value
after the call as before; the buffer keeps its length. -/
theorem unicode2UTF8_frame (cp : Nat) (dest : List Nat)
    (_hcp : cp < 2 ^ 32) (_hd : 4 ≤ dest.length) :
    (unicode2UTF8 dest cp).1.length = dest.length ∧
    ∀ i : Nat, (unicode2UTF8 dest cp).2 ≤ i → (unicode2UTF8 dest cp).1[i]? = dest[i]? := by
  have hle := getUTF8Size_le_four cp
  generalize hs : getUTF8Size cp = n at hle
  interval_cases n
  · rw [unicode2UTF8_size_zero dest hs]
    exact ⟨rfl, fun _ _ => rfl⟩
  · rw [unicode2UTF8_size_one dest hs]
    refine ⟨by simp, fun i hi => ?_⟩
    have hi : 1 ≤ i := hi
    rw [List.getElem?_set_ne (by omega)]
  · rw [unicode2UTF8_size_two dest hs]
    refine ⟨by simp, fun i hi => ?_⟩
    have hi : 2 ≤ i := hi
    rw [List.getElem?_set_ne (by omega), List.getElem?_set_ne (by omega)]
  · rw [unicode2UTF8_size_three dest hs]
    refine ⟨by simp, fun i hi => ?_⟩
    have hi : 3 ≤ i := hi
    rw [List.getElem?_set_ne (by omega), List.getElem?_set_ne (by omega),
      List.getElem?_set_ne (by omega)]
  · rw [unicode2UTF8_size_four dest hs]
    refine ⟨by simp, fun i hi => ?_⟩
    have hi : 4 ≤ i := hi
    rw [List.getElem?_set_ne (by omega), List.getElem?_set_ne (by omega),
      List.getElem?_set_ne (by omega), List.getElem?_set_ne (by omega)]

theorem unicode2UTF8_frame_witness :
    0xE9 < 2 ^ 32 ∧ 4 ≤ [5, 6, 7, 8, 9].length ∧
    ((unicode2UTF8 [5, 6, 7, 8, 9] 0xE9).1.length = [5, 6, 7, 8, 9].length ∧
    ∀ i : Nat, (unicode2UTF8 [5, 6, 7, 8, 9] 0xE9).2 ≤ i →
      (unicode2UTF8 [5, 6, 7, 8, 9] 0xE9).1[i]? = [5, 6, 7, 8, 9][i]?) :=
  ⟨by decide, by decide, unicode2UTF8_frame 0xE9 [5, 6, 7, 8, 9] (by decide) (by decide)⟩

/-- C11. Concrete encodings, on any buffer of at least four bytes: `0x41` gives
count 1 and byte `0x41`; `0x00E9` gives count 2 and bytes `0xC3 0xA9`; `0x4E2D`
gives count 3 and bytes `0xE4 0xB8 0xAD`; `0x1F600` gives count 4 and bytes
`0xF0 0x9F 0x98 0x80`. -/
theorem unicode2UTF8_concrete (dest : List Nat) (hd : 4 ≤ dest.length) :
    unicode2UTF8 dest 0x41 = (0x41 :: dest.drop 1, 1) ∧
    unicode2UTF8 dest 0x00E9 = (0xC3 :: 0xA9 :: dest.drop 2, 2) ∧
    unicode2UTF8 dest 0x4E2D = (0xE4 :: 0xB8 :: 0xAD :: dest.drop 3, 3) ∧
    unicode2UTF8 dest 0x1F600 = (0xF0 :: 0x9F :: 0x98 :: 0x80 :: dest.drop 4, 4) :=
  ⟨unicode2UTF8_ascii hd (by decide),
    unicode2UTF8_two hd (by decide) (by decide),
    unicode2UTF8_three hd (by decide) (by decide),
    unicode2UTF8_four hd (by decide) (by decide)⟩

theorem unicode2UTF8_concrete_witness :
    4 ≤ [1, 2, 3, 4, 5].length ∧
    (unicode2UTF8 [1, 2, 3, 4, 5] 0x41 = (0x41 :: [1, 2, 3, 4, 5].drop 1, 1) ∧
    unicode2UTF8 [1, 2, 3, 4, 5] 0x00E9 = (0xC3 :: 0xA9 :: [1, 2, 3, 4, 5].drop 2, 2) ∧
    unicode2UTF8 [1, 2, 3, 4, 5] 0x4E2D = (0xE4 :: 0xB8 :: 0xAD :: [1, 2, 3, 4, 5].drop 3, 3) ∧
    unicode2UTF8 [1, 2, 3, 4, 5] 0x1F600 =
      (0xF0 :: 0x9F :: 0x98 :: 0x80 :: [1, 2, 3, 4, 5].drop 4, 4)) :=
  ⟨by decide, unicode2UTF8_concrete [1, 2, 3, 4, 5] (by decide)⟩

/-- C12. Mask equivalence: for every code point in `0..0x10FFFF` and every
buffer, the encoder and its variant with the canonical leading-byte masks
`0x1F`, `0x0F`, `0x07` return the same count and leave the same buffer; the
payload shifted into the leading byte never exceeds the canonical width. -/
theorem unicode2UTF8_eq_encodeCanonical (cp : Nat) (dest : List Nat) (hcp : cp ≤ 0x10FFFF) :
    unicode2UTF8 dest cp = encodeCanonical dest cp ∧
    (getUTF8Size cp = 2 → cp >>> 6 < 2 ^ 5) ∧
    (getUTF8Size cp = 3 → cp >>> 12 < 2 ^ 4) ∧
    (getUTF8Size cp = 4 → cp >>> 18 < 2 ^ 3) := by
  obtain ⟨_, r2, r3, r4, _⟩ := getUTF8Size_range cp
  refine ⟨?_, fun h => ?_, fun h => ?_, fun h => ?_⟩
  · have hle := getUTF8Size_le_four cp
    generalize hs : getUTF8Size cp = n at hle
    interval_cases n
    · have h0 := (getUTF8Size_range cp).2.2.2.2 hs
      omega
    · rw [unicode2UTF8_size_one dest hs, encodeCanonical_size_one dest hs]
    · have e : (cp >>> 6) &&& 0x3F = (cp >>> 6) &&& 0x1F := by
        have := r2 hs
        rw [and_0x3F, and_0x1F, shiftRight_6]; omega
      rw [unicode2UTF8_size_two dest hs, encodeCanonical_size_two dest hs, e]
    · have e : (cp >>> 12) &&& 0x3F = (cp >>> 12) &&& 0x0F := by
        have := r3 hs
        rw [and_0x3F, and_0x0F, shiftRight_12]; omega
      rw [unicode2UTF8_size_three dest hs, encodeCanonical_size_three dest hs, e]
    · have e : (cp >>> 18) &&& 0x3F = (cp >>> 18) &&& 0x07 := by
        have := r4 hs
        rw [and_0x3F, and_0x07, shiftRight_18]; omega
      rw [unicode2UTF8_size_four dest hs, encodeCanonical_size_four dest hs, e]
  · have := r2 h
    rw [shiftRight_6]; omega
  · have := r3 h
    rw [shiftRight_12]; omega
  · have := r4 h
    rw [shiftRight_18]; omega

theorem unicode2UTF8_eq_encodeCanonical_witness :
    0x10FFFF ≤ 0x10FFFF ∧
    (unicode2UTF8 [1, 2, 3, 4] 0x10FFFF = encodeCanonical [1, 2, 3, 4] 0x10FFFF ∧
    (getUTF8Size 0x10FFFF = 2 → 0x10FFFF >>> 6 < 2 ^ 5) ∧
    (getUTF8Size 0x10FFFF = 3 → 0x10FFFF >>> 12 < 2 ^ 4) ∧
    (getUTF8Size 0x10FFFF = 4 → 0x10FFFF >>> 18 < 2 ^ 3)) :=
  ⟨by decide, unicode2UTF8_eq_encodeCanonical 0x10FFFF [1, 2, 3, 4] (by decide)⟩

/-- C13. At `a = 0xFFFFFFFF`, a value representable in 32 bits, `printU64`
takes the abort branch of its test `a < UINT32_MAX` and hands nothing to the
stream, whereas `printU32` on that value with a successful flush returns
normally (having emitted no byte). -/
theorem printU64_UINT32_MAX_aborts (fl : Int) (buf : List Nat) (out : List Nat) :
    (0xFFFFFFFF : Nat) < 2 ^ 32 ∧
    printU64 fl buf out 0xFFFFFFFF = { aborted := true, out := out } ∧
    printU32 0 buf out (toU32 0xFFFFFFFF) = { aborted := false, out := out } := by
  refine ⟨by decide, rfl, ?_⟩
  have hs : getUTF8Size (toU32 0xFFFFFFFF) = 0 := getUTF8Size_eq_zero (by decide)
  unfold printU32
  rw [unicode2UTF8_size_zero buf hs]
  rfl

/-- C14. For every 32-bit value and every initial content of the four-byte
local buffer, `printU32` appends to the stream exactly the bytes
`buf[0 .. n-1]` left by the encoder, in index order, `n` being the returned
count; nothing is appended above `0x10FFFF`; the outcome does not depend on the
initial content of the buffer; and it does not abort when the flush succeeds. -/
theorem printU32_spec (fl : Int) (buf : List Nat) (out : List Nat) (cp : Nat)
    (_hcp : cp < 2 ^ 32) (hbuf : buf.length = 4) :
    (printU32 fl buf out cp).out =
      out ++ (unicode2UTF8 buf cp).1.take (unicode2UTF8 buf cp).2 ∧
    (0x10FFFF < cp → (printU32 fl buf out cp).out = out) ∧
    (∀ other : List Nat, other.length = 4 →
      printU32 fl other out cp = printU32 fl buf out cp) ∧
    (fl = 0 → (printU32 fl buf out cp).aborted = false) := by
  have hb : 4 ≤ buf.length := Nat.le_of_eq hbuf.symm
  refine ⟨printU32_out fl out cp hb, fun h => ?_, fun other ho => ?_, fun h => ?_⟩
  · rw [printU32_out fl out cp hb, written_none buf h, List.append_nil]
  · have hc : 4 ≤ other.length := Nat.le_of_eq ho.symm
    rw [printU32_eq fl out cp hb, printU32_eq fl out cp hc, written_indep hc hb]
  · rw [printU32_aborted, h]; rfl

theorem printU32_spec_witness :
    0x4E2D < 2 ^ 32 ∧ [7, 7, 7, 7].length = 4 ∧
    ((printU32 0 [7, 7, 7, 7] [0x41] 0x4E2D).out =
      [0x41] ++ (unicode2UTF8 [7, 7, 7, 7] 0x4E2D).1.take (unicode2UTF8 [7, 7, 7, 7] 0x4E2D).2 ∧
    (0x10FFFF < 0x4E2D → (printU32 0 [7, 7, 7, 7] [0x41] 0x4E2D).out = [0x41]) ∧
    (∀ other : List Nat, other.length = 4 →
      printU32 0 other [0x41] 0x4E2D = printU32 0 [7, 7, 7, 7] [0x41] 0x4E2D) ∧
    ((0 : Int) = 0 → (printU32 0 [7, 7, 7, 7] [0x41] 0x4E2D).aborted = false)) :=
  ⟨by decide, by decide, printU32_spec 0 [7, 7, 7, 7] [0x41] 0x4E2D (by decide) (by decide)⟩

/-- C15. For every 16-bit value the check `(uint32_t) a < 0x10000` of
`printU16` holds, so it delegates to `printU32` on the zero-extended value and
produces the same outcome, appending one to three bytes; its abort branch is
not taken. -/
theorem printU16_spec (fl : Int) (buf : List Nat) (out : List Nat) (v : Nat)
    (hv : v < 2 ^ 16) (hbuf : buf.length = 4) :
    toU32 v < 0x10000 ∧ toU32 v = v ∧
    printU16 fl buf out v = printU32 fl buf out v ∧
    (∃ bytes : List Nat, 1 ≤ bytes.length ∧ bytes.length ≤ 3 ∧
      (printU16 fl buf out v).out = out ++ bytes) ∧
    (fl = 0 → (printU16 fl buf out v).aborted = false) := by
  have hb : 4 ≤ buf.length := Nat.le_of_eq hbuf.symm
  have e : toU32 v = v := Nat.mod_eq_of_lt (by omega)
  have hg : toU32 v < 0x10000 := by rw [e]; omega
  have hd : printU16 fl buf out v = printU32 fl buf out v := by
    unfold printU16
    rw [if_pos hg, e]
  refine ⟨hg, e, hd, ⟨(unicode2UTF8 buf v).1.take (unicode2UTF8 buf v).2, ?_, ?_, ?_⟩,
    fun h => ?_⟩
  · rcases written_cases hb (show v ≤ 0x10FFFF by omega) with
      ⟨_, w⟩ | ⟨_, _, w⟩ | ⟨_, _, w⟩ | ⟨_, w⟩ <;> rw [w] <;> simp
  · rcases written_cases hb (show v ≤ 0x10FFFF by omega) with
      ⟨_, w⟩ | ⟨_, _, w⟩ | ⟨_, _, w⟩ | ⟨h4, _⟩
    · rw [w]; simp
    · rw [w]; simp
    · rw [w]; simp
    · omega
  · rw [hd, printU32_out fl out v hb]
  · rw [hd, printU32_aborted, h]; rfl

theorem printU16_spec_witness :
    0xFFFF < 2 ^ 16 ∧ [7, 7, 7, 7].length = 4 ∧
    (toU32 0xFFFF < 0x10000 ∧ toU32 0xFFFF = 0xFFFF ∧
    printU16 0 [7, 7, 7, 7] [] 0xFFFF = printU32 0 [7, 7, 7, 7] [] 0xFFFF ∧
    (∃ bytes : List Nat, 1 ≤ bytes.length ∧ bytes.length ≤ 3 ∧
      (printU16 0 [7, 7, 7, 7] [] 0xFFFF).out = [] ++ bytes) ∧
    ((0 : Int) = 0 → (printU16 0 [7, 7, 7, 7] [] 0xFFFF).aborted = false)) :=
  ⟨by decide, by decide, printU16_spec 0 [7, 7, 7, 7] [] 0xFFFF (by decide) (by decide)⟩

/-- C16, counterexample. A call of `printU16` with the value `0x10000` and a
successful flush does not abort: the argument is converted to the `uint16_t`
value 0, the range check passes, and the call delegates to `printU32(0)`,
which emits the single byte `0x00`. -/
theorem callPrintU16_0x10000_returns :
    (callPrintU16 0 [0, 0, 0, 0] [] 0x10000).aborted = false ∧
    (callPrintU16 0 [0, 0, 0, 0] [] 0x10000).out = [0] ∧
    callPrintU16 0 [0, 0, 0, 0] [] 0x10000 = printU32 0 [0, 0, 0, 0] [] 0 := by
  decide

/-- C16, amended. The parameter of `printU16` is a 16-bit unsigned value, so
a value of `0x10000` or more never reaches its range check: a call with such
an argument passes the argument modulo `0x10000`, the check holds, the call
delegates to `printU32` on that value, and it does not abort when the flush
succeeds. -/
theorem callPrintU16_delegates (fl : Int) (buf : List Nat) (out : List Nat) (v : Nat)
    (_hv : 0x10000 ≤ v) :
    toU32 (toU16 v) < 0x10000 ∧
    callPrintU16 fl buf out v = printU32 fl buf out (v % 0x10000) ∧
    (fl = 0 → (callPrintU16 fl buf out v).aborted = false) := by
  have hlt : v % 65536 < 65536 := Nat.mod_lt _ (by decide)
  have e : toU32 (toU16 v) = v % 0x10000 := by
    unfold toU32 toU16
    omega
  have hg : toU32 (toU16 v) < 0x10000 := by rw [e]; exact hlt
  have hd : callPrintU16 fl buf out v = printU32 fl buf out (v % 0x10000) := by
    unfold callPrintU16 printU16
    rw [if_pos hg, e]
  exact ⟨hg, hd, fun h => by rw [hd, printU32_aborted, h]; rfl⟩

theorem callPrintU16_delegates_witness :
    0x10000 ≤ 0x10041 ∧
    (toU32 (toU16 0x10041) < 0x10000 ∧
    callPrintU16 0 [0, 0, 0, 0] [] 0x10041 = printU32 0 [0, 0, 0, 0] [] (0x10041 % 0x10000) ∧
    ((0 : Int) = 0 → (callPrintU16 0 [0, 0, 0, 0] [] 0x10041).aborted = false)) :=
  ⟨by decide, callPrintU16_delegates 0 [0, 0, 0, 0] [] 0x10041 (by decide)⟩

/-- C17. Surrogates are not rejected: for every code point in
`0xD800..0xDFFF` the classified length is 3 and the encoder returns 3, not 0,
storing `dest[0] = 0xED`, `dest[1] = 0x80 | ((cp >> 6) & 0x3F)`, which lies in
`0xA0..0xBF`, and `dest[2] = 0x80 | (cp & 0x3F)`. -/
theorem unicode2UTF8_surrogate (cp : Nat) (dest : List Nat)
    (h1 : 0xD800 ≤ cp) (h2 : cp ≤ 0xDFFF) (hd : 4 ≤ dest.length) :
    getUTF8Size cp = 3 ∧
    (unicode2UTF8 dest cp).2 = 3 ∧ (unicode2UTF8 dest cp).2 ≠ 0 ∧
    unicode2UTF8 dest cp =
      (0xED :: (0x80 ||| ((cp >>> 6) &&& 0x3F)) :: (0x80 ||| (cp &&& 0x3F)) ::
        dest.drop 3, 3) ∧
    0xA0 ≤ 0x80 ||| ((cp >>> 6) &&& 0x3F) ∧ 0x80 ||| ((cp >>> 6) &&& 0x3F) ≤ 0xBF := by
  have hlo : 0x800 ≤ cp := by omega
  have hhi : cp ≤ 0xFFFF := by omega
  have e := unicode2UTF8_three hd hlo hhi
  have e0 : 0xE0 + cp / 4096 = 0xED := by omega
  rw [e0] at e
  rw [cont_eq, cont_eq, shiftRight_6, e]
  refine ⟨getUTF8Size_eq_three hlo hhi, rfl, Nat.succ_ne_zero 2, rfl, ?_, ?_⟩ <;> omega

theorem unicode2UTF8_surrogate_witness :
    0xD800 ≤ 0xD83D ∧ 0xD83D ≤ 0xDFFF ∧ 4 ≤ [9, 9, 9, 9].length ∧
    (getUTF8Size 0xD83D = 3 ∧
    (unicode2UTF8 [9, 9, 9, 9] 0xD83D).2 = 3 ∧ (unicode2UTF8 [9, 9, 9, 9] 0xD83D).2 ≠ 0 ∧
    unicode2UTF8 [9, 9, 9, 9] 0xD83D =
      (0xED :: (0x80 ||| ((0xD83D >>> 6) &&& 0x3F)) :: (0x80 ||| (0xD83D &&& 0x3F)) ::
        [9, 9, 9, 9].drop 3, 3) ∧
    0xA0 ≤ 0x80 ||| ((0xD83D >>> 6) &&& 0x3F) ∧ 0x80 ||| ((0xD83D >>> 6) &&& 0x3F) ≤ 0xBF) :=
  ⟨by decide, by decide, by decide,
    unicode2UTF8_surrogate 0xD83D [9, 9, 9, 9] (by decide) (by decide) (by decide)⟩

/-- C18. Prefix-freeness: for distinct code points in `0..0x10FFFF` the bytes
written for one are not a prefix of the bytes written for the other, so the
encoding is injective; and the stream produced by printing a sequence of such
code points with `printU32` determines the sequence. -/
theorem unicode2UTF8_prefix_free (da db : List Nat) (hda : 4 ≤ da.length)
    (hdb : 4 ≤ db.length) :
    (∀ a b : Nat, a ≤ 0x10FFFF → b ≤ 0x10FFFF → a ≠ b →
      ¬ ((unicode2UTF8 da a).1.take (unicode2UTF8 da a).2 <+:
        (unicode2UTF8 db b).1.take (unicode2UTF8 db b).2)) ∧
    (∀ a b : Nat, a ≤ 0x10FFFF → b ≤ 0x10FFFF →
      (unicode2UTF8 da a).1.take (unicode2UTF8 da a).2 =
        (unicode2UTF8 db b).1.take (unicode2UTF8 db b).2 → a = b) ∧
    (∀ xs ys : List Nat, (∀ a ∈ xs, a ≤ 0x10FFFF) → (∀ b ∈ ys, b ≤ 0x10FFFF) →
      xs.foldl (fun out cp => (printU32 0 da out cp).out) [] =
        ys.foldl (fun out cp => (printU32 0 db out cp).out) [] → xs = ys) := by
  refine ⟨fun a b ha hb hne hp => hne (written_prefix_eq hda hdb ha hb hp),
    fun a b ha hb he => written_prefix_eq hda hdb ha hb (he ▸ List.prefix_refl _),
    fun xs ys hx hy h => ?_⟩
  rw [printU32_foldl 0 hda xs [], printU32_foldl 0 hdb ys [], List.nil_append,
    List.nil_append] at h
  have hfun : (fun cp => (unicode2UTF8 db cp).1.take (unicode2UTF8 db cp).2) =
      (fun cp => (unicode2UTF8 da cp).1.take (unicode2UTF8 da cp).2) :=
    funext fun cp => written_indep hdb hda
  rw [hfun] at h
  exact flatMap_inj_of_prefix_free _ (fun a => a ≤ 0x10FFFF)
    (fun a ha => written_ne_nil hda ha)
    (fun a b ha hb hp => written_prefix_eq hda hda ha hb hp) xs ys hx hy h

theorem unicode2UTF8_prefix_free_witness :
    4 ≤ [0, 0, 0, 0].length ∧ 4 ≤ [1, 2, 3, 4, 5].length ∧
    ((∀ a b : Nat, a ≤ 0x10FFFF → b ≤ 0x10FFFF → a ≠ b →
      ¬ ((unicode2UTF8 [0, 0, 0, 0] a).1.take (unicode2UTF8 [0, 0, 0, 0] a).2 <+:
        (unicode2UTF8 [1, 2, 3, 4, 5] b).1.take (unicode2UTF8 [1, 2, 3, 4, 5] b).2)) ∧
    (∀ a b : Nat, a ≤ 0x10FFFF → b ≤ 0x10FFFF →
      (unicode2UTF8 [0, 0, 0, 0] a).1.take (unicode2UTF8 [0, 0, 0, 0] a).2 =
        (unicode2UTF8 [1, 2, 3, 4, 5] b).1.take (unicode2UTF8 [1, 2, 3, 4, 5] b).2 → a = b) ∧
    (∀ xs ys : List Nat, (∀ a ∈ xs, a ≤ 0x10FFFF) → (∀ b ∈ ys, b ≤ 0x10FFFF) →
      xs.foldl (fun out cp => (printU32 0 [0, 0, 0, 0] out cp).out) [] =
        ys.foldl (fun out cp => (printU32 0 [1, 2, 3, 4, 5] out cp).out) [] → xs = ys)) :=
  ⟨by decide, by decide, unicode2UTF8_prefix_free [0, 0, 0, 0] [1, 2, 3, 4, 5] (by decide)
    (by decide)⟩

/-- C19. Order preservation: for code points `a < b` in `0..0x10FFFF` the bytes
written for `a` are strictly smaller than the bytes written for `b` in the
lexicographic order on unsigned bytes. -/
theorem unicode2UTF8_order (a b : Nat) (da db : List Nat) (hab : a < b) (hb : b ≤ 0x10FFFF)
    (hda : 4 ≤ da.length) (hdb : 4 ≤ db.length) :
    List.Lex (· < ·) ((unicode2UTF8 da a).1.take (unicode2UTF8 da a).2)
      ((unicode2UTF8 db b).1.take (unicode2UTF8 db b).2) := by
  have ha : a ≤ 0x10FFFF := by omega
  rcases written_cases hda ha with ⟨a1, wa⟩ | ⟨a1, a2, wa⟩ | ⟨a1, a2, wa⟩ | ⟨a1, wa⟩ <;>
    rcases written_cases hdb hb with ⟨b1, wb⟩ | ⟨b1, b2, wb⟩ | ⟨b1, b2, wb⟩ | ⟨b1, wb⟩ <;>
    rw [wa, wb] <;>
    first
    | (exfalso; omega)
    | (apply List.Lex.rel; omega)
    | (apply lex_two; omega)
    | (apply lex_three; omega)
    | (apply lex_four; omega)

theorem unicode2UTF8_order_witness :
    0xD7FF < 0x10000 ∧ 0x10000 ≤ 0x10FFFF ∧ 4 ≤ [0, 0, 0, 0].length ∧
    4 ≤ [9, 9, 9, 9].length ∧
    List.Lex (· < ·)
      ((unicode2UTF8 [0, 0, 0, 0] 0xD7FF).1.take (unicode2UTF8 [0, 0, 0, 0] 0xD7FF).2)
      ((unicode2UTF8 [9, 9, 9, 9] 0x10000).1.take (unicode2UTF8 [9, 9, 9, 9] 0x10000).2) :=
  ⟨by decide, by decide, by decide, by decide,
    unicode2UTF8_order 0xD7FF 0x10000 [0, 0, 0, 0] [9, 9, 9, 9] (by decide) (by decide)
      (by decide) (by decide)⟩

end BrainfuckRust
